import Mathlib

/-!
Shallow embedding of the nicos-compact-cachedb core: the string dictionaries
(src/dicts.rs) and the day-file record codec (src/dayfile.rs).

Modelling conventions:
* a byte is a `Nat` (u8 values 0..255); a byte string is a `List Nat`;
* `HashMap<Rc<[u8]>, u32>` is modelled as an association list whose lookup
  takes the first matching binding; `insert` (which replaces any previous
  binding) is modelled by prepending, which is observationally the same;
* Rust integer casts are explicit: `as u32` is `% 2 ^ 32`, `as u16` is
  `% 2 ^ 16`; `usize::try_into::<u32>` failure is an explicit bounds check;
* fallible operations (`Option` in Rust, `.expect(..)` aborts) return
  `Option`, with `none` for both the `None` and the abort outcome;
* the file writes of `DayFile::add_entry` are modelled by returning the
  16-byte header and the payload bytes that the Rust code hands to the
  buffered writer; the `f64` timestamp is modelled by its IEEE-754 bit
  pattern (a `Nat` below `2 ^ 64`), since the code only ever copies the
  bit pattern into the header (`LE::write_f64`).
-/

namespace CacheDB

/-- A byte string: list of u8 values. -/
abbrev Bytes := List Nat

/-- Lookup in the association-list model of `HashMap<Rc<[u8]>, u32>`:
first matching binding wins. -/
def hmGet : List (Bytes × Nat) → Bytes → Option Nat
  | [], _ => none
  | (k, v) :: rest, x => if k = x then some v else hmGet rest x

/-- `HashMap::insert`: replaces any previous binding for the key; with
first-match lookup, prepending the new binding is observationally equal. -/
def hmInsert (m : List (Bytes × Nat)) (k : Bytes) (v : Nat) : List (Bytes × Nat) :=
  (k, v) :: m

/-- `struct Dict { strs: Vec<Rc<[u8]>>, indices: HashMap<Rc<[u8]>, u32>,
max_index: u32 }` from src/dicts.rs. -/
structure Dict where
  strs : List Bytes
  indices : List (Bytes × Nat)
  maxIndex : Nat
deriving DecidableEq

/-- `Dict::index` (src/dicts.rs lines 62-74): return the existing index if
present; otherwise `strs.len()` must fit `u32` (`try_into().ok()?`) and be
below `max_index`, in which case the string is appended with that index. -/
def Dict.index (d : Dict) (val : Bytes) : Option (Nat × Dict) :=
  match hmGet d.indices val with
  | some n => some (n, d)
  | none =>
    if d.strs.length < 2 ^ 32 then
      if d.strs.length ≥ d.maxIndex then none
      else some (d.strs.length,
        { d with indices := hmInsert d.indices val d.strs.length,
                 strs := d.strs ++ [val] })
    else none

/-- `Dict::value` (src/dicts.rs lines 76-78): `&self.strs[index as usize]`;
out-of-bounds indexing aborts, modelled as `none`. -/
def Dict.value (d : Dict) (index : Nat) : Option Bytes :=
  d.strs[index]?

/-- One iteration of the `Dict::load` loop (src/dicts.rs lines 43-48):
`indices.insert(rc, strs.len() as u32); strs.push(rc)`. -/
def Dict.loadStep (d : Dict) (line : Bytes) : Dict :=
  { d with indices := hmInsert d.indices line (d.strs.length % 2 ^ 32),
           strs := d.strs ++ [line] }

/-- `Dict::load` (src/dicts.rs lines 38-51), applied to the list of lines
produced by splitting the persisted file on the newline byte; the result
has `max_index: 0`. -/
def Dict.load (lines : List Bytes) : Dict :=
  lines.foldl Dict.loadStep { strs := [], indices := [], maxIndex := 0 }

/-- `Dict::save` (src/dicts.rs lines 53-60): each stored string followed by
the newline byte `10`, concatenated. -/
def Dict.save (d : Dict) : Bytes :=
  d.strs.flatMap (fun s => s ++ [10])

/-- Model of `BufRead::split(b'\n')`, which `Dict::load` iterates over:
segments between newline bytes; a final segment is yielded only when
nonempty (a trailing newline does not produce an empty final segment). -/
def splitLines : Bytes → List Bytes
  | [] => []
  | b :: rest =>
    if b = 10 then [] :: splitLines rest
    else
      match splitLines rest with
      | [] => [[b]]
      | seg :: segs => (b :: seg) :: segs

/-- `struct Dicts { keys: Dict, vals: Dict }` from src/dicts.rs. -/
structure Dicts where
  keys : Dict
  vals : Dict
deriving DecidableEq

/-- `Dicts::default` (src/dicts.rs lines 86-95): empty dictionaries, key
bound `u16::MAX` (= 65535), value bound `(1 << 30) - 1`, and the value
dictionary pre-seeded with the single byte string consisting of `45`
(the byte of the minus sign); the returned index is discarded. -/
def Dicts.default : Dicts :=
  let keys : Dict := { strs := [], indices := [], maxIndex := 65535 }
  let vals0 : Dict := { strs := [], indices := [], maxIndex := 2 ^ 30 - 1 }
  let vals : Dict :=
    match Dict.index vals0 [45] with
    | some (_, d) => d
    | none => vals0
  { keys := keys, vals := vals }

/-- `Dicts::load` (src/dicts.rs lines 98-104), applied to the line lists of
the persisted `keys` and `values` files: load both dictionaries, then set
the two bounds. -/
def Dicts.load (keyLines valLines : List Bytes) : Dicts :=
  { keys := { Dict.load keyLines with maxIndex := 65535 },
    vals := { Dict.load valLines with maxIndex := 2 ^ 30 - 1 } }

/-- `Dicts::key_index` (src/dicts.rs lines 111-113):
`self.keys.index(key).expect("key overflow") as u16`; the abort on overflow
is `none`, the `as u16` cast is `% 2 ^ 16`. -/
def Dicts.keyIndex (d : Dicts) (key : Bytes) : Option (Nat × Dicts) :=
  match Dict.index d.keys key with
  | none => none
  | some (i, keys2) => some (i % 2 ^ 16, { d with keys := keys2 })

/-- `Dicts::value_index` (src/dicts.rs lines 115-117):
`self.vals.index(val).expect("value overflow")`. -/
def Dicts.valueIndex (d : Dicts) (val : Bytes) : Option (Nat × Dicts) :=
  match Dict.index d.vals val with
  | none => none
  | some (i, vals2) => some (i, { d with vals := vals2 })

/-- `Dicts::key` (src/dicts.rs lines 119-121): `self.keys.value(index)`. -/
def Dicts.key (d : Dicts) (index : Nat) : Option Bytes :=
  Dict.value d.keys index

/-- `Dicts::value` (src/dicts.rs lines 123-125): `self.vals.value(index)`. -/
def Dicts.value (d : Dicts) (index : Nat) : Option Bytes :=
  Dict.value d.vals index

/-- `const FLAG_EXPIRING: u32 = 1 << 31` (src/dayfile.rs line 31). -/
def FLAG_EXPIRING : Nat := 2 ^ 31

/-- `const FLAG_ENCODED: u32 = 1 << 30` (src/dayfile.rs line 32). -/
def FLAG_ENCODED : Nat := 2 ^ 30

/-- `const FLAG_INDEXED: u32 = 1 << 29` (src/dayfile.rs line 33). -/
def FLAG_INDEXED : Nat := 2 ^ 29

/-- `enc_map` (src/dayfile.rs lines 71-91): nibble value of a byte of the
16-symbol alphabet, in ASCII: the digits 48-57, then 46 `.`, 44 `,`,
45 `-`, 91 `[`, 93 `]`, 101 `e`. -/
def enc_map (b : Nat) : Option Nat :=
  match b with
  | 48 => some 0
  | 49 => some 1
  | 50 => some 2
  | 51 => some 3
  | 52 => some 4
  | 53 => some 5
  | 54 => some 6
  | 55 => some 7
  | 56 => some 8
  | 57 => some 9
  | 46 => some 10
  | 44 => some 11
  | 45 => some 12
  | 91 => some 13
  | 93 => some 14
  | 101 => some 15
  | _ => none

/-- `enc` (src/dayfile.rs lines 93-103): iterate over `value.chunks(2)`;
the first byte of a chunk gives the low nibble, the optional second byte
the high nibble; any byte outside the alphabet makes the whole encoding
fail. -/
def enc : Bytes → Option Bytes
  | [] => some []
  | [a] =>
    match enc_map a with
    | none => none
    | some x => some [x]
  | a :: b :: rest =>
    match enc_map a with
    | none => none
    | some x =>
      match enc_map b with
      | none => none
      | some y =>
        match enc rest with
        | none => none
        | some r => some ((x ||| y <<< 4) :: r)

/-- `dec_map` (src/dayfile.rs lines 105-107): byte of the alphabet string
at the given nibble index (always below 16 at the call sites in `dec`). -/
def dec_map (b : Nat) : Nat :=
  [48, 49, 50, 51, 52, 53, 54, 55, 56, 57, 46, 44, 45, 91, 93, 101].getD b 0

/-- `dec` (src/dayfile.rs lines 109-117): each payload byte yields the
alphabet byte of its low nibble then of its high nibble; the result is
truncated to the stored original length. -/
def dec (value : Bytes) (len : Nat) : Bytes :=
  (value.flatMap (fun b => [dec_map (b &&& 15), dec_map (b >>> 4)])).take len

/-- Little-endian bytes of a 16-bit word (`LE::write_u16`). -/
def leBytes2 (w : Nat) : Bytes :=
  [w % 2 ^ 8, w / 2 ^ 8 % 2 ^ 8]

/-- Little-endian bytes of a 32-bit word (`LE::write_u32`). -/
def leBytes4 (w : Nat) : Bytes :=
  [w % 2 ^ 8, w / 2 ^ 8 % 2 ^ 8, w / 2 ^ 16 % 2 ^ 8, w / 2 ^ 24 % 2 ^ 8]

/-- Little-endian bytes of a 64-bit word (`LE::write_f64` applied to the
IEEE-754 bit pattern of the timestamp). -/
def leBytes8 (w : Nat) : Bytes :=
  [w % 2 ^ 8, w / 2 ^ 8 % 2 ^ 8, w / 2 ^ 16 % 2 ^ 8, w / 2 ^ 24 % 2 ^ 8,
   w / 2 ^ 32 % 2 ^ 8, w / 2 ^ 40 % 2 ^ 8, w / 2 ^ 48 % 2 ^ 8, w / 2 ^ 56 % 2 ^ 8]

/-- Read back a little-endian byte list as an unsigned integer. -/
def readLE (bytes : Bytes) : Nat :=
  bytes.foldr (fun b acc => b + 2 ^ 8 * acc) 0

/-- The 32-bit word in bytes 0-3 of a record header. -/
def headerWord (msg : Bytes) : Nat :=
  readLE (msg.take 4)

/-- The 16-bit category index in bytes 4-5 of a record header. -/
def headerCat (msg : Bytes) : Nat :=
  readLE ((msg.drop 4).take 2)

/-- The 16-bit subkey index in bytes 6-7 of a record header. -/
def headerSub (msg : Bytes) : Nat :=
  readLE ((msg.drop 6).take 2)

/-- The 64-bit timestamp bit pattern in bytes 8-15 of a record header. -/
def headerTs (msg : Bytes) : Nat :=
  readLE (msg.drop 8)

/-- The value-representation choice of `DayFile::add_entry`
(src/dayfile.rs lines 50-56): the `if`/`else if`/`else` chain computing
`(firstfield, wvalue)` (and, through `value_index`, the updated
dictionaries). `none` models the abort of `value_index` on overflow. -/
def selectMode (value : Bytes) (dicts : Dicts) : Option (Nat × Bytes × Dicts) :=
  if value.head? = some 39 ∨ value.head? = some 40 ∨ value = [45] then
    match Dicts.valueIndex dicts value with
    | none => none
    | some (i, dicts2) => some (i ||| FLAG_INDEXED, [], dicts2)
  else
    match enc value with
    | some encoded => some (value.length % 2 ^ 32 ||| FLAG_ENCODED, encoded, dicts)
    | none => some (value.length % 2 ^ 32, value, dicts)

/-- `DayFile::add_entry` (src/dayfile.rs lines 45-68): pick the value
representation, set the EXPIRING flag if requested, and emit the 16-byte
header (`firstfield`, `catindex`, `subkeyindex`, timestamp bits, all
little-endian) followed by the payload bytes. Returns
(header, payload, updated dictionaries). -/
def addEntry (catindex subkeyindex : Nat) (value : Bytes) (tsBits : Nat)
    (expiring : Bool) (dicts : Dicts) : Option (Bytes × Bytes × Dicts) :=
  match selectMode value dicts with
  | none => none
  | some (ff0, wvalue, dicts2) =>
    let firstfield := if expiring then ff0 ||| FLAG_EXPIRING else ff0
    some (leBytes4 firstfield ++ leBytes2 catindex ++ leBytes2 subkeyindex
            ++ leBytes8 tsBits, wvalue, dicts2)

/-- The 16-symbol alphabet of the nibble-packing scheme, as byte values:
the characters `0123456789.,-[]e`. -/
def alphabet : Bytes :=
  [48, 49, 50, 51, 52, 53, 54, 55, 56, 57, 46, 44, 45, 91, 93, 101]

/-- The dictionary-indexed trigger of `add_entry`: the value starts with a
single quote (39) or an opening parenthesis (40), or is exactly the single
byte 45 (minus sign). -/
def indexedCond (value : Bytes) : Prop :=
  value.head? = some 39 ∨ value.head? = some 40 ∨ value = [45]

instance (value : Bytes) : Decidable (indexedCond value) := by
  unfold indexedCond; infer_instance

/-- Index of the last occurrence of `x` in `l`, if any. -/
def lastIdx : List Bytes → Bytes → Option Nat
  | [], _ => none
  | s :: rest, x =>
    match lastIdx rest x with
    | some j => some (j + 1)
    | none => if s = x then some 0 else none

/-- The data-structure invariant of `Dict`: the hash map binds exactly the
strings of `strs`, each to the position of its last occurrence.  It holds
for every dictionary the code can build (fresh, loaded from at most
`2 ^ 32` lines, or grown through `index`). -/
def Dict.Wf (d : Dict) : Prop :=
  ∀ x, hmGet d.indices x = lastIdx d.strs x

/-- Insert a list of strings in order via `Dict.index`, collecting the
assigned indices; `none` as soon as one insertion overflows. -/
def insertAll (d : Dict) : List Bytes → Option (List Nat × Dict)
  | [] => some ([], d)
  | x :: xs =>
    match Dict.index d x with
    | none => none
    | some (i, d2) =>
      match insertAll d2 xs with
      | none => none
      | some (is, d3) => some (i :: is, d3)

/-- Dictionary-pair states whose value dictionary only holds indices below
its bound `2 ^ 30 - 1`: true of `Dicts.default`, of `Dicts.load` from at
most `2 ^ 30 - 1` lines, and preserved by the index operations. -/
def ValsSmall (d : Dicts) : Prop :=
  (∀ x i, hmGet d.vals.indices x = some i → i < 2 ^ 30 - 1) ∧
  d.vals.maxIndex ≤ 2 ^ 30 - 1

/-- A four-byte little-endian rendering of a number below `2 ^ 32`; used to
build large families of distinct byte strings. -/
def fourByte (n : Nat) : Bytes :=
  [n % 256, n / 256 % 256, n / 65536 % 256, n / 16777216]

/-! ### Arithmetic bridges between the bit operations and plain arithmetic -/

theorem lor_nibbles (x y : Nat) (hx : x < 16) : x ||| y <<< 4 = x + 16 * y := by
  apply Nat.eq_of_testBit_eq
  intro j
  rcases Nat.lt_or_ge j 4 with hj | hj
  · rw [Nat.testBit_lor, Nat.testBit_shiftLeft,
      decide_eq_false (by omega : ¬ (j ≥ 4)), Bool.false_and, Bool.or_false,
      Nat.testBit_to_div_mod, Nat.testBit_to_div_mod]
    have hdiv : x / 2 ^ j % 2 = (x + 16 * y) / 2 ^ j % 2 := by
      interval_cases j <;> omega
    rw [hdiv]
  · obtain ⟨k, rfl⟩ : ∃ k, j = 4 + k := ⟨j - 4, by omega⟩
    have h16 : (16 : Nat) ≤ 2 ^ (4 + k) := by
      calc (16 : Nat) = 2 ^ 4 := by norm_num
        _ ≤ 2 ^ (4 + k) := Nat.pow_le_pow_right (by norm_num) (by omega)
    have hx0 : Nat.testBit x (4 + k) = false :=
      Nat.testBit_eq_false_of_lt (lt_of_lt_of_le hx h16)
    have hs : (x + 16 * y) >>> 4 = y := by
      rw [Nat.shiftRight_eq_div_pow]; omega
    have hr := @Nat.testBit_shiftRight 4 k (x + 16 * y)
    rw [hs] at hr
    rw [Nat.testBit_lor, Nat.testBit_shiftLeft, hx0, ← hr,
      decide_eq_true (by omega : 4 + k ≥ 4), Bool.true_and,
      Bool.false_or, Nat.add_sub_cancel_left]

theorem and_fifteen (z : Nat) : z &&& 15 = z % 16 := by
  have h : (15 : Nat) = 2 ^ 4 - 1 := by norm_num
  rw [h, Nat.and_pow_two_sub_one_eq_mod]

theorem shiftRight_four (z : Nat) : z >>> 4 = z / 16 := by
  rw [Nat.shiftRight_eq_div_pow]

theorem readLE_leBytes4 (w : Nat) : readLE (leBytes4 w) = w % 2 ^ 32 := by
  simp only [readLE, leBytes4, List.foldr]
  omega

theorem readLE_leBytes2 (w : Nat) : readLE (leBytes2 w) = w % 2 ^ 16 := by
  simp only [readLE, leBytes2, List.foldr]
  omega

theorem readLE_leBytes8 (w : Nat) : readLE (leBytes8 w) = w % 2 ^ 64 := by
  simp only [readLE, leBytes8, List.foldr]
  omega

/-- Field extraction from a header assembled by `addEntry`. -/
theorem header_fields (ff cat sub ts : Nat) :
    headerWord (leBytes4 ff ++ leBytes2 cat ++ leBytes2 sub ++ leBytes8 ts) = ff % 2 ^ 32 ∧
    headerCat (leBytes4 ff ++ leBytes2 cat ++ leBytes2 sub ++ leBytes8 ts) = cat % 2 ^ 16 ∧
    headerSub (leBytes4 ff ++ leBytes2 cat ++ leBytes2 sub ++ leBytes8 ts) = sub % 2 ^ 16 ∧
    headerTs (leBytes4 ff ++ leBytes2 cat ++ leBytes2 sub ++ leBytes8 ts) = ts % 2 ^ 64 := by
  refine ⟨?_, ?_, ?_, ?_⟩ <;>
    simp only [headerWord, headerCat, headerSub, headerTs, leBytes4, leBytes2, leBytes8,
      List.cons_append, List.nil_append, List.take, List.drop, readLE, List.foldr] <;>
    omega

/-! ### The nibble codec -/

theorem enc_map_of_mem {b : Nat} (hb : b ∈ alphabet) :
    ∃ x, enc_map b = some x ∧ x < 16 ∧ dec_map x = b := by
  simp only [alphabet, List.mem_cons, List.not_mem_nil, or_false] at hb
  rcases hb with rfl | rfl | rfl | rfl | rfl | rfl | rfl | rfl | rfl | rfl | rfl | rfl |
    rfl | rfl | rfl | rfl <;>
    exact ⟨_, rfl, by norm_num, by norm_num [dec_map]⟩

theorem enc_map_mem {b x : Nat} (h : enc_map b = some x) : b ∈ alphabet := by
  unfold enc_map at h
  split at h <;> simp_all [alphabet]

/-- Successful nibble packing with round trip: the content of claim C1,
as a helper usable by several claim theorems. -/
theorem enc_dec_aux : ∀ n (v : Bytes), v.length ≤ n → (∀ b ∈ v, b ∈ alphabet) →
    ∃ w, enc v = some w ∧ w.length = (v.length + 1) / 2 ∧ dec w v.length = v := by
  intro n
  induction n with
  | zero =>
    intro v hlen _
    have hv : v = [] := List.eq_nil_of_length_eq_zero (by omega)
    subst hv
    exact ⟨[], rfl, rfl, rfl⟩
  | succ n ih =>
    intro v hlen halpha
    match v with
    | [] => exact ⟨[], rfl, rfl, rfl⟩
    | [a] =>
      obtain ⟨x, hx, hx16, hxd⟩ := enc_map_of_mem (halpha a (by simp))
      refine ⟨[x], by simp [enc, hx], by simp, ?_⟩
      simp only [dec, List.flatMap_cons, List.flatMap_nil, List.append_nil,
        List.length_cons, List.length_nil]
      rw [and_fifteen, Nat.mod_eq_of_lt (by omega), hxd]
      simp [List.take]
    | a :: b :: rest =>
      obtain ⟨x, hx, hx16, hxd⟩ := enc_map_of_mem (halpha a (by simp))
      obtain ⟨y, hy, hy16, hyd⟩ := enc_map_of_mem (halpha b (by simp))
      obtain ⟨w, hw, hwlen, hwdec⟩ := ih rest (by simp at hlen ⊢; omega)
        (fun c hc => halpha c (by simp [hc]))
      refine ⟨(x ||| y <<< 4) :: w, by simp [enc, hx, hy, hw], ?_, ?_⟩
      · simp only [List.length_cons] at *
        omega
      · have hz : x ||| y <<< 4 = x + 16 * y := lor_nibbles x y hx16
        simp only [dec, List.flatMap_cons, List.length_cons, List.cons_append,
          List.take_succ_cons] at hwdec ⊢
        rw [hz, and_fifteen, shiftRight_four,
          Nat.add_mul_mod_self_left x 16 y, Nat.mod_eq_of_lt hx16,
          Nat.add_mul_div_left x y (by norm_num), Nat.div_eq_of_lt hx16,
          Nat.zero_add, hxd, hyd]
        simpa using hwdec

theorem enc_alpha : ∀ n (v : Bytes), v.length ≤ n → ∀ w, enc v = some w →
    ∀ b ∈ v, b ∈ alphabet := by
  intro n
  induction n with
  | zero =>
    intro v hlen w _ b hb
    have hv : v = [] := List.eq_nil_of_length_eq_zero (by omega)
    subst hv; simp at hb
  | succ n ih =>
    intro v hlen w hw b hb
    match v with
    | [] => simp at hb
    | [a] =>
      simp only [enc] at hw
      rcases ha : enc_map a with _ | x
      · rw [ha] at hw; exact absurd hw (by simp)
      · simp only [List.mem_singleton] at hb
        subst hb; exact enc_map_mem ha
    | a :: c :: rest =>
      simp only [enc] at hw
      rcases ha : enc_map a with _ | x
      · rw [ha] at hw; exact absurd hw (by simp)
      rcases hc : enc_map c with _ | y
      · rw [ha, hc] at hw; exact absurd hw (by simp)
      rcases hr : enc rest with _ | r
      · rw [ha, hc, hr] at hw; exact absurd hw (by simp)
      simp only [List.mem_cons] at hb
      rcases hb with rfl | rfl | hb
      · exact enc_map_mem ha
      · exact enc_map_mem hc
      · exact ih rest (by simp at hlen ⊢; omega) r hr b hb

theorem enc_eq_none {v : Bytes} (h : ¬ ∀ b ∈ v, b ∈ alphabet) : enc v = none := by
  rcases he : enc v with _ | w
  · rfl
  · exact absurd (enc_alpha v.length v le_rfl w he) h

/-! ### The dictionary invariant: the hash map holds the last occurrence
of each string of `strs` -/

theorem lastIdx_append_single (l : List Bytes) (v x : Bytes) :
    lastIdx (l ++ [v]) x = if v = x then some l.length else lastIdx l x := by
  induction l with
  | nil => simp [lastIdx]
  | cons s l ih =>
    by_cases hv : v = x
    · subst hv
      simp [List.cons_append, lastIdx, ih]
    · simp [List.cons_append, lastIdx, ih, hv]

theorem lastIdx_getElem : ∀ (l : List Bytes) (x : Bytes) (j : Nat),
    lastIdx l x = some j → j < l.length ∧ l[j]? = some x := by
  intro l
  induction l with
  | nil => intro x j h; simp [lastIdx] at h
  | cons s l ih =>
    intro x j h
    simp only [lastIdx] at h
    rcases hl : lastIdx l x with _ | j2
    · rw [hl] at h
      by_cases hs : s = x
      · rw [if_pos hs] at h
        injection h with h
        subst h
        exact ⟨by simp, by simp [hs]⟩
      · rw [if_neg hs] at h
        cases h
    · rw [hl] at h
      injection h with h
      subst h
      obtain ⟨hlt, hget⟩ := ih x j2 hl
      simp only [List.length_cons, List.getElem?_cons_succ]
      exact ⟨by omega, hget⟩

theorem lastIdx_eq_none : ∀ (l : List Bytes) (x : Bytes), x ∉ l → lastIdx l x = none := by
  intro l
  induction l with
  | nil => intro x _; rfl
  | cons s l ih =>
    intro x hx
    simp only [List.mem_cons, not_or] at hx
    have hsx : ¬ (s = x) := fun h => hx.1 h.symm
    simp only [lastIdx, ih x hx.2, if_neg hsx]

theorem lastIdx_mem : ∀ (l : List Bytes) (x : Bytes) (j : Nat),
    lastIdx l x = some j → x ∈ l := by
  intro l x j h
  obtain ⟨hlt, hget⟩ := lastIdx_getElem l x j h
  rw [List.getElem?_eq_getElem hlt] at hget
  injection hget with hget
  exact hget ▸ List.getElem_mem hlt

theorem Wf_empty (m : Nat) : Dict.Wf { strs := [], indices := [], maxIndex := m } :=
  fun _ => rfl

/-- `Dict::index`, case of a string that the map already binds. -/
theorem index_present {d : Dict} {s : Bytes} {i : Nat}
    (h : hmGet d.indices s = some i) : Dict.index d s = some (i, d) := by
  unfold Dict.index
  rw [h]

/-- `Dict::index`, case of a new string with room left. -/
theorem index_new {d : Dict} {s : Bytes} (h : hmGet d.indices s = none)
    (hlen : d.strs.length < d.maxIndex) (hmax : d.maxIndex ≤ 2 ^ 32) :
    Dict.index d s = some (d.strs.length,
      { d with indices := hmInsert d.indices s d.strs.length,
               strs := d.strs ++ [s] }) := by
  unfold Dict.index
  rw [h, if_pos (by omega), if_neg (by omega)]

/-- `Dict::index`, case of a new string in a full dictionary. -/
theorem index_overflow {d : Dict} {s : Bytes} (h : hmGet d.indices s = none)
    (hfull : d.maxIndex ≤ d.strs.length) : Dict.index d s = none := by
  unfold Dict.index
  rw [h]
  by_cases hlt : d.strs.length < 2 ^ 32
  · rw [if_pos hlt, if_pos (by omega)]
  · rw [if_neg hlt]

theorem Wf_insertNew {d : Dict} (hwf : d.Wf) (s : Bytes) :
    Dict.Wf { d with indices := hmInsert d.indices s d.strs.length,
                     strs := d.strs ++ [s] } := by
  intro x
  simp only [hmInsert, hmGet, lastIdx_append_single]
  by_cases h : s = x
  · simp [h]
  · simp [h, hwf x]

/-! ### Loading and saving -/

theorem load_strs_aux : ∀ (lines : List Bytes) (d : Dict),
    (lines.foldl Dict.loadStep d).strs = d.strs ++ lines := by
  intro lines
  induction lines with
  | nil => intro d; simp
  | cons l rest ih =>
    intro d
    simp only [List.foldl_cons, ih, Dict.loadStep, List.append_assoc,
      List.singleton_append]

theorem load_maxIndex_aux : ∀ (lines : List Bytes) (d : Dict),
    (lines.foldl Dict.loadStep d).maxIndex = d.maxIndex := by
  intro lines
  induction lines with
  | nil => intro d; rfl
  | cons l rest ih => intro d; simp only [List.foldl_cons, ih, Dict.loadStep]

theorem load_get_aux : ∀ (lines : List Bytes) (d : Dict) (x : Bytes),
    hmGet (lines.foldl Dict.loadStep d).indices x =
      match lastIdx lines x with
      | some j => some ((d.strs.length + j) % 2 ^ 32)
      | none => hmGet d.indices x := by
  intro lines
  induction lines with
  | nil => intro d x; rfl
  | cons l rest ih =>
    intro d x
    simp only [List.foldl_cons, ih, Dict.loadStep, hmInsert, hmGet, lastIdx,
      List.length_append, List.length_cons, List.length_nil]
    rcases hr : lastIdx rest x with _ | j
    · by_cases hl : l = x
      · simp [hl]
      · simp [hl]
    · simp only []
      congr 1
      omega

theorem load_strs (lines : List Bytes) : (Dict.load lines).strs = lines := by
  simp [Dict.load, load_strs_aux]

theorem load_maxIndex (lines : List Bytes) : (Dict.load lines).maxIndex = 0 := by
  simp [Dict.load, load_maxIndex_aux]

theorem load_get (lines : List Bytes) (x : Bytes) :
    hmGet (Dict.load lines).indices x = (lastIdx lines x).map (fun j => j % 2 ^ 32) := by
  unfold Dict.load
  rw [load_get_aux]
  rcases lastIdx lines x with _ | j <;> simp [hmGet]

theorem load_Wf {lines : List Bytes} (h : lines.length ≤ 2 ^ 32) :
    Dict.Wf (Dict.load lines) := by
  intro x
  rw [load_get, load_strs]
  rcases hl : lastIdx lines x with _ | j
  · rfl
  · have hj := (lastIdx_getElem lines x j hl).1
    have hj32 : j % 2 ^ 32 = j := Nat.mod_eq_of_lt (by omega)
    simp only [Option.map_some']
    rw [hj32]

theorem splitLines_append (s t : Bytes) (hs : 10 ∉ s) :
    splitLines (s ++ 10 :: t) = s :: splitLines t := by
  induction s with
  | nil => simp [splitLines]
  | cons b s ih =>
    simp only [List.mem_cons, not_or] at hs
    have hb : ¬ (b = 10) := fun h => hs.1 h.symm
    simp only [List.cons_append, splitLines, List.append_eq, if_neg hb, ih hs.2]

theorem splitLines_save (strs : List Bytes) (h : ∀ s ∈ strs, 10 ∉ s) :
    splitLines (strs.flatMap (fun s => s ++ [10])) = strs := by
  induction strs with
  | nil => rfl
  | cons s rest ih =>
    simp only [List.flatMap_cons, List.append_assoc, List.singleton_append]
    rw [splitLines_append s _ (h s (by simp)), ih (fun a ha => h a (by simp [ha]))]

/-! ### Sequences of insertions -/

theorem insertAll_fresh : ∀ (xs : List Bytes) (d : Dict), d.Wf → xs.Nodup →
    (∀ x ∈ xs, x ∉ d.strs) → d.strs.length + xs.length ≤ d.maxIndex →
    d.maxIndex ≤ 2 ^ 32 →
    ∃ d2, insertAll d xs = some (List.range' d.strs.length xs.length, d2) ∧
      d2.strs = d.strs ++ xs ∧ d2.maxIndex = d.maxIndex ∧ d2.Wf := by
  intro xs
  induction xs with
  | nil =>
    intro d hwf _ _ _ _
    exact ⟨d, rfl, by simp, rfl, hwf⟩
  | cons x xs ih =>
    intro d hwf hnd hdis hcap hmax
    have hx : x ∉ d.strs := hdis x (by simp)
    have hget : hmGet d.indices x = none := by
      rw [hwf x]
      exact lastIdx_eq_none _ _ hx
    have hidx := index_new hget (by simp at hcap; omega) hmax
    set d1 : Dict := { d with indices := hmInsert d.indices x d.strs.length,
                              strs := d.strs ++ [x] } with hd1
    have hwf1 : d1.Wf := Wf_insertNew hwf x
    simp only [List.nodup_cons] at hnd
    obtain ⟨d2, hall, hstrs, hmax2, hwf2⟩ := ih d1 hwf1 hnd.2
      (by
        intro y hy
        have h1 : y ∉ d.strs := hdis y (by simp [hy])
        have h2 : y ≠ x := fun h => hnd.1 (h ▸ hy)
        simp [hd1, h1, h2])
      (by simp [hd1]; simp at hcap; omega)
      hmax
    refine ⟨d2, ?_, ?_, ?_, hwf2⟩
    · simp only [insertAll, hidx, ← hd1, hall, List.length_cons,
        List.range'_succ]
      have : d1.strs.length = d.strs.length + 1 := by simp [hd1]
      rw [this] at hall
      simp [hall]
    · simp [hstrs, hd1]
    · simp [hmax2, hd1]

theorem insertAll_append_none (xs : List Bytes) : ∀ (d : Dict) (y : Bytes)
    (is : List Nat) (d2 : Dict), insertAll d xs = some (is, d2) →
    Dict.index d2 y = none → insertAll d (xs ++ [y]) = none := by
  induction xs with
  | nil =>
    intro d y is d2 h1 h2
    simp only [insertAll] at h1
    injection h1 with h1
    obtain ⟨rfl, rfl⟩ : is = [] ∧ d2 = d := by
      constructor <;> injection h1 <;> simp_all
    simp only [List.nil_append, insertAll, h2]
  | cons x xs ih =>
    intro d y is d2 h1 h2
    simp only [insertAll] at h1
    rcases hx : Dict.index d x with _ | ⟨i, d1⟩
    · simp [hx] at h1
    · simp only [hx] at h1
      rcases hall : insertAll d1 xs with _ | ⟨is1, d3⟩
      · simp [hall] at h1
      · simp only [hall, Option.some.injEq, Prod.mk.injEq] at h1
        obtain ⟨h1a, h1b⟩ := h1
        subst h1a
        subst h1b
        simp only [List.cons_append, insertAll, hx, List.append_eq,
          ih d1 y is1 _ hall h2]

/-! ### Shapes of the default dictionaries and of the mode selection -/

theorem default_keys_eq :
    Dicts.default.keys = { strs := [], indices := [], maxIndex := 65535 } := rfl

theorem default_vals_eq :
    Dicts.default.vals =
      { strs := [[45]], indices := [([45], 0)], maxIndex := 2 ^ 30 - 1 } := by
  decide

theorem default_vals_Wf : Dict.Wf Dicts.default.vals := by
  intro x
  rw [default_vals_eq]
  show hmGet [([45], 0)] x = lastIdx [[45]] x
  simp only [hmGet, lastIdx]

theorem valsSmall_default : ValsSmall Dicts.default := by
  constructor
  · intro x i h
    rw [default_vals_eq] at h
    simp only [hmGet] at h
    split at h
    · injection h with h
      omega
    · cases h
  · rw [default_vals_eq]

/-- Exhaustive characterisation of a successful `Dict::index` call. -/
theorem index_some_cases {d : Dict} {s : Bytes} {i : Nat} {d2 : Dict}
    (h : Dict.index d s = some (i, d2)) :
    (hmGet d.indices s = some i ∧ d2 = d) ∨
    (hmGet d.indices s = none ∧ i = d.strs.length ∧ d.strs.length < d.maxIndex ∧
      d2 = { d with indices := hmInsert d.indices s d.strs.length,
                    strs := d.strs ++ [s] }) := by
  unfold Dict.index at h
  rcases hg : hmGet d.indices s with _ | n <;>
    simp only [hg, Option.some.injEq, Prod.mk.injEq] at h
  · split at h
    · split at h
      · cases h
      · simp only [Option.some.injEq, Prod.mk.injEq] at h
        right
        exact ⟨rfl, h.1.symm, by omega, h.2.symm⟩
    · cases h
  · left
    exact ⟨by rw [h.1], h.2.symm⟩

theorem valueIndex_lt {d : Dicts} {v : Bytes} {i : Nat} {d2 : Dicts}
    (hd : ValsSmall d) (h : Dicts.valueIndex d v = some (i, d2)) :
    i < 2 ^ 30 - 1 := by
  unfold Dicts.valueIndex at h
  rcases hx : Dict.index d.vals v with _ | ⟨j, vals2⟩
  · simp [hx] at h
  · simp only [hx, Option.some.injEq, Prod.mk.injEq] at h
    have hji : j = i := h.1
    rcases index_some_cases hx with ⟨hg, _⟩ | ⟨_, hlen, hlt, _⟩
    · have := hd.1 v j hg
      omega
    · have := hd.2
      omega

theorem selectMode_indexed {value : Bytes} (h : indexedCond value) (dicts : Dicts) :
    selectMode value dicts =
      match Dicts.valueIndex dicts value with
      | none => none
      | some (i, dicts2) => some (i ||| FLAG_INDEXED, [], dicts2) := by
  have h2 : value.head? = some 39 ∨ value.head? = some 40 ∨ value = [45] := h
  unfold selectMode
  rw [if_pos h2]

theorem selectMode_encoded {value : Bytes} (h : ¬ indexedCond value)
    {w : Bytes} (hw : enc value = some w) (dicts : Dicts) :
    selectMode value dicts =
      some (value.length % 2 ^ 32 ||| FLAG_ENCODED, w, dicts) := by
  have h2 : ¬ (value.head? = some 39 ∨ value.head? = some 40 ∨ value = [45]) := h
  unfold selectMode
  rw [if_neg h2, hw]

theorem selectMode_literal {value : Bytes} (h : ¬ indexedCond value)
    (hw : enc value = none) (dicts : Dicts) :
    selectMode value dicts = some (value.length % 2 ^ 32, value, dicts) := by
  have h2 : ¬ (value.head? = some 39 ∨ value.head? = some 40 ∨ value = [45]) := h
  unfold selectMode
  rw [if_neg h2, hw]

theorem addEntry_eq (cat sub : Nat) (value : Bytes) (ts : Nat) (e : Bool)
    (d : Dicts) :
    addEntry cat sub value ts e d =
      match selectMode value d with
      | none => none
      | some (ff0, wv, d2) =>
        some (leBytes4 (if e then ff0 ||| FLAG_EXPIRING else ff0) ++ leBytes2 cat ++
          leBytes2 sub ++ leBytes8 ts, wv, d2) := rfl

/-! ### Header-word bit facts -/

theorem or_expiring_mod30 (ff : Nat) : (ff ||| 2 ^ 31) % 2 ^ 30 = ff % 2 ^ 30 := by
  apply Nat.eq_of_testBit_eq
  intro k
  rw [Nat.testBit_mod_two_pow, Nat.testBit_mod_two_pow, Nat.testBit_lor]
  by_cases hk : k < 30
  · rw [Nat.testBit_two_pow_of_ne (by omega : 31 ≠ k)]
    simp [hk]
  · simp [hk]

theorem headerWord_mk (ff cat sub ts : Nat) :
    headerWord (leBytes4 ff ++ leBytes2 cat ++ leBytes2 sub ++ leBytes8 ts) =
      ff % 2 ^ 32 :=
  (header_fields ff cat sub ts).1

theorem or31_testBit_ne (ff : Nat) {k : Nat} (hk : k ≠ 31) :
    (ff ||| 2 ^ 31).testBit k = ff.testBit k := by
  rw [Nat.testBit_lor, Nat.testBit_two_pow_of_ne (fun h => hk h.symm), Bool.or_false]

/-- Lookup in the keys component of a loaded dictionary pair. -/
theorem dicts_load_keys_get (kL vL : List Bytes) (x : Bytes) :
    hmGet (Dicts.load kL vL).keys.indices x =
      (lastIdx kL x).map (fun j => j % 2 ^ 32) := load_get kL x

/-- The strings of the keys component of a loaded dictionary pair. -/
theorem dicts_load_keys_strs (kL vL : List Bytes) :
    (Dicts.load kL vL).keys.strs = kL := load_strs kL

/-- The bound of the keys component of a loaded dictionary pair. -/
theorem dicts_load_keys_maxIndex (kL vL : List Bytes) :
    (Dicts.load kL vL).keys.maxIndex = 65535 := rfl

/-- Lookup in the value component of a loaded dictionary pair. -/
theorem dicts_load_vals_get (kL vL : List Bytes) (x : Bytes) :
    hmGet (Dicts.load kL vL).vals.indices x =
      (lastIdx vL x).map (fun j => j % 2 ^ 32) := load_get vL x

/-- The strings of the value component of a loaded dictionary pair. -/
theorem dicts_load_vals_strs (kL vL : List Bytes) :
    (Dicts.load kL vL).vals.strs = vL := load_strs vL

/-! ### Claim C1 -/

/-- Claim C1: for every byte string all of whose bytes belong to the
16-symbol alphabet `0123456789.,-[]e` (odd lengths included), nibble
packing succeeds, produces `ceil(len/2)` payload bytes, and decoding that
payload at the original length reproduces the string exactly. -/
theorem enc_dec_roundtrip (v : Bytes) (h : ∀ b ∈ v, b ∈ alphabet) :
    ∃ w, enc v = some w ∧ w.length = (v.length + 1) / 2 ∧ dec w v.length = v :=
  enc_dec_aux v.length v le_rfl h

/-- Witness for C1, at the byte string of the text `12.5` (odd-length
strings are covered by the theorem as well). -/
theorem enc_dec_roundtrip_witness :
    ∃ w, enc [49, 50, 46, 53] = some w ∧ w.length = (4 + 1) / 2 ∧
      dec w 4 = [49, 50, 46, 53] := by
  have h := enc_dec_roundtrip [49, 50, 46, 53] (by decide)
  simpa using h

/-! ### Claim C3 -/

/-- Claim C3: `Dict::index` returns the existing index of an
already-present string without changing the dictionary (even when it is
full); otherwise, when the dictionary holds fewer than `max_index`
entries, it assigns the next sequential index (the current entry count,
so N distinct insertions into an empty dictionary with `max_index = N`
receive indices `0..N-1` in insertion order); otherwise it fails with
overflow, returning no changed state. -/
theorem dict_index_spec (d : Dict) (s : Bytes) (hmax : d.maxIndex ≤ 2 ^ 32) :
    (∀ i, hmGet d.indices s = some i → Dict.index d s = some (i, d)) ∧
    (hmGet d.indices s = none → d.strs.length < d.maxIndex →
      Dict.index d s = some (d.strs.length,
        { d with indices := hmInsert d.indices s d.strs.length,
                 strs := d.strs ++ [s] })) ∧
    (hmGet d.indices s = none → d.maxIndex ≤ d.strs.length →
      Dict.index d s = none) ∧
    (∀ N (xs : List Bytes), N ≤ 2 ^ 32 → xs.Nodup → xs.length = N →
      ∃ d2, insertAll { strs := [], indices := [], maxIndex := N } xs =
        some (List.range N, d2)) := by
  refine ⟨fun i h => index_present h, fun h hlen => index_new h hlen hmax,
    fun h hfull => index_overflow h hfull, ?_⟩
  intro N xs hN hnd hlen
  obtain ⟨d2, hall, -, -, -⟩ := insertAll_fresh xs
    { strs := [], indices := [], maxIndex := N } (Wf_empty N) hnd (by simp)
    (by simp [hlen]) hN
  exact ⟨d2, by simpa [List.range_eq_range', hlen] using hall⟩

/-- Witness for C3: the three behaviours at small concrete dictionaries. -/
theorem dict_index_spec_witness :
    Dict.index { strs := [[1]], indices := [([1], 0)], maxIndex := 2 } [1] =
      some (0, { strs := [[1]], indices := [([1], 0)], maxIndex := 2 }) ∧
    Dict.index { strs := [[1]], indices := [([1], 0)], maxIndex := 1 } [2] = none ∧
    ∃ d2, insertAll { strs := [], indices := [], maxIndex := 3 } [[5], [6], [7]] =
      some (List.range 3, d2) := by
  refine ⟨?_, ?_, ?_⟩
  · exact (dict_index_spec { strs := [[1]], indices := [([1], 0)], maxIndex := 2 }
      [1] (by norm_num)).1 0 (by decide)
  · exact (dict_index_spec { strs := [[1]], indices := [([1], 0)], maxIndex := 1 }
      [2] (by norm_num)).2.2.1 (by decide) (by norm_num)
  · exact (dict_index_spec { strs := [], indices := [], maxIndex := 0 } []
      (by norm_num)).2.2.2 3 [[5], [6], [7]] (by norm_num) (by decide) (by decide)

/-! ### Claim C5 -/

/-- Claim C5 (amended): encoding a zero-length value produces an
ENCODED-mode record: the nibble test vacuously succeeds, so the ENCODED
flag (bit 30) is set (not a flag-free literal record), the INDEXED flag is
clear, the EXPIRING bit equals the expiring argument, the low 30 bits are
0 (the length), and zero payload bytes are written. -/
theorem add_entry_empty_value (cat sub ts : Nat) (e : Bool) (d : Dicts) :
    ∃ msg, addEntry cat sub [] ts e d = some (msg, [], d) ∧
      (headerWord msg).testBit 30 = true ∧
      (headerWord msg).testBit 29 = false ∧
      (headerWord msg).testBit 31 = e ∧
      headerWord msg % 2 ^ 30 = 0 := by
  have hsel : selectMode [] d = some (2 ^ 30, [], d) := by
    have h := selectMode_encoded (show ¬ indexedCond [] by decide) rfl d
    simpa [FLAG_ENCODED] using h
  refine ⟨_, by rw [addEntry_eq, hsel], ?_, ?_, ?_, ?_⟩ <;>
    rw [(header_fields _ _ _ _).1] <;> cases e <;> decide

/-- Counterexample to C5 as stated: at the empty value the record carries
the ENCODED flag, not a flag-free literal header. -/
theorem add_entry_empty_value_counterexample :
    (addEntry 0 0 [] 0 false Dicts.default).map
      (fun r => ((headerWord r.1).testBit 30, (headerWord r.1).testBit 29, r.2.1)) =
      some (true, false, []) := by
  decide

/-! ### Claim C9 -/

/-- Claim C9: for a fixed category, subkey, value, timestamp and
dictionary state, the records produced with `expiring = true` and
`expiring = false` differ only in bit 31 of the header word: both succeed
or both fail, the payloads, updated dictionaries, header bytes 4-15, flag
bits 29/30, low 30 bits, and every header-word bit other than 31 agree,
and the expiring record has bit 31 set. -/
theorem expiring_flag_independence (cat sub : Nat) (v : Bytes) (ts : Nat) (d : Dicts) :
    (addEntry cat sub v ts true d = none ↔ addEntry cat sub v ts false d = none) ∧
    ∀ msgT pT dT msgF pF dF,
      addEntry cat sub v ts true d = some (msgT, pT, dT) →
      addEntry cat sub v ts false d = some (msgF, pF, dF) →
      pT = pF ∧ dT = dF ∧ msgT.drop 4 = msgF.drop 4 ∧
      (∀ k, k ≠ 31 → (headerWord msgT).testBit k = (headerWord msgF).testBit k) ∧
      (headerWord msgT).testBit 31 = true ∧
      headerWord msgT % 2 ^ 30 = headerWord msgF % 2 ^ 30 := by
  rcases hsel : selectMode v d with _ | ⟨ff, wv, d2⟩
  · have hT0 : addEntry cat sub v ts true d = none := by rw [addEntry_eq, hsel]
    have hF0 : addEntry cat sub v ts false d = none := by rw [addEntry_eq, hsel]
    exact ⟨by rw [hT0, hF0], fun _ _ _ _ _ _ h => absurd (hT0 ▸ h) (by simp)⟩
  · have hTeq : addEntry cat sub v ts true d =
        some (leBytes4 (ff ||| FLAG_EXPIRING) ++ leBytes2 cat ++ leBytes2 sub ++
          leBytes8 ts, wv, d2) := by
      rw [addEntry_eq, hsel]
      rfl
    have hFeq : addEntry cat sub v ts false d =
        some (leBytes4 ff ++ leBytes2 cat ++ leBytes2 sub ++ leBytes8 ts, wv, d2) := by
      rw [addEntry_eq, hsel]
      rfl
    refine ⟨by rw [hTeq, hFeq]; simp, ?_⟩
    intro msgT pT dT msgF pF dF hT hF
    rw [hTeq] at hT
    rw [hFeq] at hF
    simp only [Option.some.injEq, Prod.mk.injEq] at hT hF
    obtain ⟨hmT, hpT, hdT⟩ := hT
    obtain ⟨hmF, hpF, hdF⟩ := hF
    subst hmT
    subst hpT
    subst hdT
    subst hmF
    subst hpF
    subst hdF
    refine ⟨rfl, rfl, by simp [leBytes4], ?_, ?_, ?_⟩
    · intro k hk
      rw [headerWord_mk, headerWord_mk]
      rcases Nat.lt_or_ge k 32 with hk32 | hk32
      · rw [Nat.testBit_mod_two_pow, Nat.testBit_mod_two_pow,
          decide_eq_true hk32, Bool.true_and, Bool.true_and]
        exact or31_testBit_ne ff hk
      · rw [Nat.testBit_mod_two_pow, Nat.testBit_mod_two_pow,
          decide_eq_false (by omega : ¬ k < 32)]
        simp
    · rw [headerWord_mk, Nat.testBit_mod_two_pow, decide_eq_true
        (by omega : (31 : Nat) < 32), Bool.true_and]
      show (ff ||| 2 ^ 31).testBit 31 = true
      rw [Nat.testBit_lor, Nat.testBit_two_pow_self, Bool.or_true]
    · rw [headerWord_mk, headerWord_mk,
        Nat.mod_mod_of_dvd _ (by norm_num : (2 : Nat) ^ 30 ∣ 2 ^ 32),
        Nat.mod_mod_of_dvd _ (by norm_num : (2 : Nat) ^ 30 ∣ 2 ^ 32)]
      exact or_expiring_mod30 ff

/-- Witness for C9 at a concrete literal-mode record. -/
theorem expiring_flag_independence_witness :
    ∃ msgT pT dT msgF pF dF,
      addEntry 1 2 [102, 111, 111] 3 true Dicts.default = some (msgT, pT, dT) ∧
      addEntry 1 2 [102, 111, 111] 3 false Dicts.default = some (msgF, pF, dF) ∧
      pT = pF ∧ dT = dF ∧ (headerWord msgT).testBit 31 = true ∧
      (headerWord msgT).testBit 30 = (headerWord msgF).testBit 30 := by
  rcases hT : addEntry 1 2 [102, 111, 111] 3 true Dicts.default with _ | ⟨msgT, pT, dT⟩
  · exact absurd hT (by decide)
  rcases hF : addEntry 1 2 [102, 111, 111] 3 false Dicts.default with _ | ⟨msgF, pF, dF⟩
  · exact absurd hF (by decide)
  obtain ⟨h1, h2, h3, h4, h5, h6⟩ :=
    (expiring_flag_independence 1 2 [102, 111, 111] 3 Dicts.default).2
      msgT pT dT msgF pF dF hT hF
  exact ⟨msgT, pT, dT, msgF, pF, dF, rfl, rfl, h1, h2, h5, h4 30 (by omega)⟩

/-! ### Claim C10 -/

/-- Claim C10 (amended): `Dicts::load` rebuilds the value dictionary as
exactly the ordered lines of the persisted `values` list, with no sentinel
pre-seeding: entry 0 is the first line whatever it is, the lookup map is
the last-occurrence map of the lines (indices truncated to `u32`), and
(for lists of at most `2 ^ 32` lines, so that the `usize`-to-`u32`
truncation of stored positions is the identity) the byte string of the
minus sign maps to value index 0 only if line 0 is that string. -/
theorem load_no_preseed (keyLines valLines : List Bytes) :
    (Dicts.load keyLines valLines).vals.strs = valLines ∧
    (∀ x, hmGet (Dicts.load keyLines valLines).vals.indices x =
      (lastIdx valLines x).map (fun j => j % 2 ^ 32)) ∧
    (valLines.length ≤ 2 ^ 32 →
      hmGet (Dicts.load keyLines valLines).vals.indices [45] = some 0 →
      valLines[0]? = some [45]) := by
  have hstrs : (Dicts.load keyLines valLines).vals.strs = valLines := load_strs valLines
  have hget : ∀ x, hmGet (Dicts.load keyLines valLines).vals.indices x =
      (lastIdx valLines x).map (fun j => j % 2 ^ 32) := fun x => load_get valLines x
  refine ⟨hstrs, hget, ?_⟩
  intro hlen h
  rw [hget [45]] at h
  rcases hl : lastIdx valLines [45] with _ | j
  · rw [hl] at h
    cases h
  · rw [hl] at h
    simp only [Option.map_some', Option.some.injEq] at h
    have hj := (lastIdx_getElem valLines [45] j hl).1
    have hj0 : j = 0 := by omega
    subst hj0
    exact (lastIdx_getElem valLines [45] 0 hl).2

/-- Witness for C10 at a two-line persisted list starting with the minus
sign. -/
theorem load_no_preseed_witness :
    (Dicts.load [] [[45], [97]]).vals.strs = [[45], [97]] ∧
    ([[45], [97]] : List Bytes)[0]? = some [45] := by
  have h := load_no_preseed [] [[45], [97]]
  exact ⟨h.1, h.2.2 (by norm_num) (by decide)⟩

/-- Counterexample to C10 as stated: over a persisted list of `2 ^ 32 + 1`
lines the stored positions are truncated to `u32`, so the minus-sign
string can map to index 0 although line 0 is a different string. -/
theorem load_no_preseed_counterexample :
    hmGet (Dicts.load [] (List.replicate (2 ^ 32) [0] ++ [[45]])).vals.indices [45] =
      some 0 ∧
    (List.replicate (2 ^ 32) [0] ++ [[45]])[0]? = some [0] ∧
    ([0] : Bytes) ≠ [45] := by
  refine ⟨?_, ?_, by decide⟩
  · rw [dicts_load_vals_get, lastIdx_append_single, if_pos rfl,
      List.length_replicate, Option.map_some', Nat.mod_self]
  · rw [List.getElem?_append,
      if_pos (by rw [List.length_replicate]; norm_num :
        (0 : Nat) < (List.replicate (2 ^ 32) ([0] : Bytes)).length)]
    nth_rewrite 1 [show (2 ^ 32 : Nat) = 2 ^ 32 - 1 + 1 by norm_num]
    rw [List.replicate_succ]
    exact List.getElem?_cons_zero

/-! ### Claim C7 -/

/-- Claim C7: for every well-formed dictionary (of at most `2 ^ 32`
entries, so that stored `u32` positions are exact) whose stored byte
strings contain no line-terminator byte, saving it and loading from the
same persisted byte stream yields a dictionary with the same strings in
the same order, an identical index assignment for every byte string, and
`string_at(index_of(x)) = x` for every `x` bound before saving. -/
theorem dict_save_load_roundtrip (d : Dict) (hwf : d.Wf)
    (hlen : d.strs.length ≤ 2 ^ 32) (hnl : ∀ s ∈ d.strs, 10 ∉ s) :
    (Dict.load (splitLines (Dict.save d))).strs = d.strs ∧
    (∀ x, hmGet (Dict.load (splitLines (Dict.save d))).indices x =
      hmGet d.indices x) ∧
    (∀ x i, hmGet d.indices x = some i →
      Dict.value (Dict.load (splitLines (Dict.save d))) i = some x) := by
  have hsplit : splitLines (Dict.save d) = d.strs := splitLines_save d.strs hnl
  rw [hsplit]
  refine ⟨load_strs d.strs, ?_, ?_⟩
  · intro x
    rw [load_get, hwf x]
    rcases hl : lastIdx d.strs x with _ | j
    · rfl
    · have hj := (lastIdx_getElem d.strs x j hl).1
      simp only [Option.map_some']
      rw [Nat.mod_eq_of_lt (by omega)]
  · intro x i h
    rw [hwf x] at h
    have hg := (lastIdx_getElem d.strs x i h).2
    unfold Dict.value
    rw [load_strs]
    exact hg

/-- Witness for C7 at a concrete two-entry loaded dictionary. -/
theorem dict_save_load_roundtrip_witness :
    (Dict.load (splitLines (Dict.save (Dict.load [[97], [98]])))).strs = [[97], [98]] ∧
    Dict.value (Dict.load (splitLines (Dict.save (Dict.load [[97], [98]])))) 1 =
      some [98] := by
  have h := dict_save_load_roundtrip (Dict.load [[97], [98]])
    (load_Wf (by decide)) (by rw [load_strs]; decide) (by rw [load_strs]; decide)
  refine ⟨?_, h.2.2 [98] 1 (by decide)⟩
  rw [h.1, load_strs]

/-! ### Claim C8 -/

/-- `Dicts::key_index` expressed through the underlying `Dict::index`. -/
theorem keyIndex_of_index {D : Dicts} {k : Bytes} {i : Nat} {K : Dict}
    (h : Dict.index D.keys k = some (i, K)) :
    Dicts.keyIndex D k = some (i % 2 ^ 16, { D with keys := K }) := by
  unfold Dicts.keyIndex
  rw [h]

/-- `Dicts::key` on an explicit pair is a `Dict::value` lookup. -/
theorem dicts_key_mk (K V : Dict) (i : Nat) :
    Dicts.key { keys := K, vals := V } i = Dict.value K i := rfl

/-- Claim C8 (amended): for every dictionary-pair state whose key
dictionary is well formed, holds at most `2 ^ 16` entries and has bound at
most `2 ^ 16` — true of every state reached from `Dicts::default` by index
operations and of `Dicts::load` from a keys list of at most `2 ^ 16`
lines — `key_index(k)` either fails on overflow or returns an index `i`
unchanged by the `u16` narrowing and satisfying `key(i) = k`. -/
theorem key_index_correct (D : Dicts) (k : Bytes) (hwf : D.keys.Wf)
    (hlen : D.keys.strs.length ≤ 2 ^ 16) (hmax : D.keys.maxIndex ≤ 2 ^ 16) :
    Dicts.keyIndex D k = none ∨
    ∃ i D2, Dicts.keyIndex D k = some (i, D2) ∧ i < 2 ^ 16 ∧
      Dicts.key D2 i = some k := by
  rcases hg : hmGet D.keys.indices k with _ | i
  · rcases Nat.lt_or_ge D.keys.strs.length D.keys.maxIndex with hlt | hge
    · right
      have hidx := index_new hg hlt (hmax.trans (by norm_num))
      have hl16 : D.keys.strs.length < 2 ^ 16 := by omega
      have hki := keyIndex_of_index hidx
      rw [Nat.mod_eq_of_lt hl16] at hki
      refine ⟨_, _, hki, hl16, ?_⟩
      rw [dicts_key_mk]
      show (D.keys.strs ++ [k])[D.keys.strs.length]? = some k
      exact List.getElem?_concat_length _ _
    · left
      unfold Dicts.keyIndex
      rw [index_overflow hg hge]
  · right
    have hidx := index_present hg
    have hj := lastIdx_getElem D.keys.strs k i (by rw [← hwf k]; exact hg)
    have hi16 : i < 2 ^ 16 := by omega
    have hki := keyIndex_of_index hidx
    rw [Nat.mod_eq_of_lt hi16] at hki
    refine ⟨_, _, hki, hi16, ?_⟩
    rw [dicts_key_mk]
    exact hj.2

/-- Witness for C8 at the default dictionary pair. -/
theorem key_index_correct_witness :
    Dicts.keyIndex Dicts.default [97] = none ∨
    ∃ i D2, Dicts.keyIndex Dicts.default [97] = some (i, D2) ∧ i < 2 ^ 16 ∧
      Dicts.key D2 i = some [97] :=
  key_index_correct Dicts.default [97] (fun _ => rfl) (by decide) (by decide)

/-- Counterexample to C8 as stated: loading a keys list of 65537 distinct
lines and resolving the last line returns its stored index 65536 truncated
by the `as u16` cast to 0, silently aliasing it to the first line. -/
theorem key_index_alias_counterexample :
    ∃ D2, Dicts.keyIndex (Dicts.load ((List.range 65537).map fourByte) [])
        (fourByte 65536) = some (0, D2) ∧
      Dicts.key D2 0 = some (fourByte 0) ∧ fourByte 0 ≠ fourByte 65536 := by
  have hsplit : (List.range 65537).map fourByte =
      ((List.range 65536).map fourByte) ++ [fourByte 65536] := by
    rw [show (65537 : Nat) = 65536 + 1 from rfl, List.range_succ, List.map_append,
      List.map_singleton]
  have hlast : lastIdx ((List.range 65537).map fourByte) (fourByte 65536) =
      some 65536 := by
    rw [hsplit, lastIdx_append_single, if_pos rfl, List.length_map,
      List.length_range]
  have hget : hmGet (Dicts.load ((List.range 65537).map fourByte) []).keys.indices
      (fourByte 65536) = some 65536 := by
    rw [dicts_load_keys_get, hlast, Option.map_some',
      Nat.mod_eq_of_lt (by norm_num)]
  have hki := keyIndex_of_index (index_present hget)
  rw [show (65536 : Nat) % 2 ^ 16 = 0 by norm_num] at hki
  refine ⟨_, hki, ?_, by decide⟩
  rw [dicts_key_mk]
  unfold Dict.value
  rw [dicts_load_keys_strs, List.getElem?_map, List.getElem?_range (by norm_num)]
  rfl

/-! ### Claim C6 -/

/-- Claim C6 (amended): for every value that triggers neither the
dictionary-indexed nor the nibble-packed mode, is not expiring, and whose
length L is below `2 ^ 29` (so that L cannot spill into the flag bits),
`add_entry` with category C, subkey S and timestamp bits T (C, S below
`2 ^ 16`, T below `2 ^ 64`) appends a 16-byte header whose little-endian
fields are exactly L (with the three flag bits clear), C, S and T,
followed by exactly the L raw value bytes verbatim. -/
theorem add_entry_literal_header (cat sub : Nat) (v : Bytes) (ts : Nat) (d : Dicts)
    (hni : ¬ indexedCond v) (hna : ¬ (∀ b ∈ v, b ∈ alphabet))
    (hL : v.length < 2 ^ 29) (hcat : cat < 2 ^ 16) (hsub : sub < 2 ^ 16)
    (hts : ts < 2 ^ 64) :
    ∃ msg, addEntry cat sub v ts false d = some (msg, v, d) ∧
      msg.length = 16 ∧ headerWord msg = v.length ∧
      (headerWord msg).testBit 29 = false ∧ (headerWord msg).testBit 30 = false ∧
      (headerWord msg).testBit 31 = false ∧
      headerCat msg = cat ∧ headerSub msg = sub ∧ headerTs msg = ts := by
  have hsel := selectMode_literal hni (enc_eq_none hna) d
  have heq : addEntry cat sub v ts false d =
      some (leBytes4 (v.length % 2 ^ 32) ++ leBytes2 cat ++ leBytes2 sub ++
        leBytes8 ts, v, d) := by
    rw [addEntry_eq, hsel]
    rfl
  have hmod : v.length % 2 ^ 32 = v.length := Nat.mod_eq_of_lt (by omega)
  refine ⟨_, heq, ?_, ?_, ?_, ?_, ?_, ?_, ?_, ?_⟩
  · simp [leBytes4, leBytes2, leBytes8]
  · rw [(header_fields _ _ _ _).1, hmod, hmod]
  · rw [(header_fields _ _ _ _).1, hmod, hmod]
    exact Nat.testBit_eq_false_of_lt (by omega)
  · rw [(header_fields _ _ _ _).1, hmod, hmod]
    exact Nat.testBit_eq_false_of_lt (by omega)
  · rw [(header_fields _ _ _ _).1, hmod, hmod]
    exact Nat.testBit_eq_false_of_lt (by omega)
  · rw [(header_fields _ _ _ _).2.1, Nat.mod_eq_of_lt hcat]
  · rw [(header_fields _ _ _ _).2.2.1, Nat.mod_eq_of_lt hsub]
  · rw [(header_fields _ _ _ _).2.2.2, Nat.mod_eq_of_lt hts]

/-- Witness for C6 at the three-byte value of the text `foo`. -/
theorem add_entry_literal_header_witness :
    ∃ msg, addEntry 1 2 [102, 111, 111] 3 false Dicts.default =
        some (msg, [102, 111, 111], Dicts.default) ∧
      msg.length = 16 ∧ headerWord msg = 3 ∧
      (headerWord msg).testBit 29 = false ∧ (headerWord msg).testBit 30 = false ∧
      (headerWord msg).testBit 31 = false ∧
      headerCat msg = 1 ∧ headerSub msg = 2 ∧ headerTs msg = 3 := by
  have h := add_entry_literal_header 1 2 [102, 111, 111] 3 Dicts.default
    (by decide) (by decide) (by decide) (by decide) (by decide) (by decide)
  simpa using h

/-- Counterexample to C6 as stated: a literal value of length `2 ^ 29` has
bit 29 of the header word set (the length spills into the INDEXED flag
position), so the claimed flag-free header is not produced for every
length. -/
theorem add_entry_literal_header_counterexample :
    ¬ indexedCond (List.replicate (2 ^ 29) 102) ∧
    ¬ (∀ b ∈ List.replicate (2 ^ 29) 102, b ∈ alphabet) ∧
    (addEntry 0 0 (List.replicate (2 ^ 29) 102) 0 false Dicts.default).map
      (fun r => (headerWord r.1).testBit 29) = some true := by
  have hrep : List.replicate (2 ^ 29) (102 : Nat) =
      102 :: List.replicate (2 ^ 29 - 1) 102 := by
    nth_rewrite 1 [show (2 ^ 29 : Nat) = 2 ^ 29 - 1 + 1 by norm_num]
    rw [List.replicate_succ]
  have hni : ¬ indexedCond (List.replicate (2 ^ 29) 102) := by
    intro h
    rcases h with h | h | h
    · rw [hrep, List.head?_cons] at h
      exact absurd h (by decide)
    · rw [hrep, List.head?_cons] at h
      exact absurd h (by decide)
    · have hl := congrArg List.length h
      rw [List.length_replicate] at hl
      exact absurd hl (by decide)
  have hna : ¬ (∀ b ∈ List.replicate (2 ^ 29) 102, b ∈ alphabet) := by
    intro h
    have h102 := h 102 (List.mem_replicate.2 ⟨by norm_num, rfl⟩)
    exact absurd h102 (by decide)
  have hsel := selectMode_literal hni (enc_eq_none hna) Dicts.default
  have heq : addEntry 0 0 (List.replicate (2 ^ 29) 102) 0 false Dicts.default =
      some (leBytes4 (2 ^ 29 % 2 ^ 32) ++ leBytes2 0 ++ leBytes2 0 ++ leBytes8 0,
        List.replicate (2 ^ 29) 102, Dicts.default) := by
    rw [addEntry_eq, hsel, List.length_replicate]
    rfl
  refine ⟨hni, hna, ?_⟩
  rw [heq, Option.map_some', (header_fields _ _ _ _).1]
  decide

/-! ### Claim C2 -/

theorem or_high_mod30 (ff k : Nat) (hk : 30 ≤ k) :
    (ff ||| 2 ^ k) % 2 ^ 30 = ff % 2 ^ 30 := by
  apply Nat.eq_of_testBit_eq
  intro j
  rw [Nat.testBit_mod_two_pow, Nat.testBit_mod_two_pow, Nat.testBit_lor]
  by_cases hj : j < 30
  · rw [Nat.testBit_two_pow_of_ne (by omega : k ≠ j)]
    simp [hj]
  · simp [hj]

theorem headerWord_mk_e (ff cat sub ts : Nat) (e : Bool) :
    headerWord (leBytes4 (if e then ff ||| FLAG_EXPIRING else ff) ++ leBytes2 cat ++
      leBytes2 sub ++ leBytes8 ts) = (if e then ff ||| FLAG_EXPIRING else ff) % 2 ^ 32 :=
  (header_fields _ cat sub ts).1

theorem word_e_low30 (ff cat sub ts : Nat) (e : Bool) :
    headerWord (leBytes4 (if e then ff ||| FLAG_EXPIRING else ff) ++ leBytes2 cat ++
      leBytes2 sub ++ leBytes8 ts) % 2 ^ 30 = ff % 2 ^ 30 := by
  rw [headerWord_mk_e, Nat.mod_mod_of_dvd _ (by norm_num : (2 : Nat) ^ 30 ∣ 2 ^ 32)]
  cases e
  · rfl
  · show (ff ||| 2 ^ 31) % 2 ^ 30 = ff % 2 ^ 30
    exact or_high_mod30 ff 31 (by norm_num)

theorem word_e_testBit (ff cat sub ts : Nat) (e : Bool) {k : Nat} (hk : k < 31) :
    (headerWord (leBytes4 (if e then ff ||| FLAG_EXPIRING else ff) ++ leBytes2 cat ++
      leBytes2 sub ++ leBytes8 ts)).testBit k = ff.testBit k := by
  rw [headerWord_mk_e, Nat.testBit_mod_two_pow, decide_eq_true (by omega : k < 32),
    Bool.true_and]
  cases e
  · rfl
  · show (ff ||| 2 ^ 31).testBit k = ff.testBit k
    exact or31_testBit_ne ff (by omega)

/-- Header-word facts of a dictionary-indexed record with index `i`. -/
theorem indexed_mode_facts (i : Nat) (hi : i < 2 ^ 30) (cat sub ts : Nat) (e : Bool) :
    headerWord (leBytes4 (if e then (i ||| FLAG_INDEXED) ||| FLAG_EXPIRING
        else i ||| FLAG_INDEXED) ++ leBytes2 cat ++ leBytes2 sub ++ leBytes8 ts) %
      2 ^ 30 = i ||| FLAG_INDEXED ∧
    (headerWord (leBytes4 (if e then (i ||| FLAG_INDEXED) ||| FLAG_EXPIRING
        else i ||| FLAG_INDEXED) ++ leBytes2 cat ++ leBytes2 sub ++
        leBytes8 ts)).testBit 29 = true ∧
    (headerWord (leBytes4 (if e then (i ||| FLAG_INDEXED) ||| FLAG_EXPIRING
        else i ||| FLAG_INDEXED) ++ leBytes2 cat ++ leBytes2 sub ++
        leBytes8 ts)).testBit 30 = false := by
  have hor : i ||| FLAG_INDEXED < 2 ^ 30 :=
    Nat.or_lt_two_pow hi (by norm_num [FLAG_INDEXED])
  refine ⟨?_, ?_, ?_⟩
  · rw [word_e_low30, Nat.mod_eq_of_lt hor]
  · rw [word_e_testBit _ _ _ _ _ (by norm_num : (29 : Nat) < 31)]
    show (i ||| 2 ^ 29).testBit 29 = true
    rw [Nat.testBit_lor, Nat.testBit_two_pow_self, Bool.or_true]
  · rw [word_e_testBit _ _ _ _ _ (by norm_num : (30 : Nat) < 31)]
    show (i ||| 2 ^ 29).testBit 30 = false
    rw [Nat.testBit_lor, Nat.testBit_two_pow_of_ne (by omega : 29 ≠ 30),
      Nat.testBit_eq_false_of_lt hi, Bool.or_false]

/-- Header-word facts of a nibble-packed record for a value of length `L`. -/
theorem encoded_mode_facts (L cat sub ts : Nat) (e : Bool) :
    (headerWord (leBytes4 (if e then (L % 2 ^ 32 ||| FLAG_ENCODED) ||| FLAG_EXPIRING
        else L % 2 ^ 32 ||| FLAG_ENCODED) ++ leBytes2 cat ++ leBytes2 sub ++
        leBytes8 ts)).testBit 30 = true ∧
    (L < 2 ^ 29 →
      (headerWord (leBytes4 (if e then (L % 2 ^ 32 ||| FLAG_ENCODED) ||| FLAG_EXPIRING
        else L % 2 ^ 32 ||| FLAG_ENCODED) ++ leBytes2 cat ++ leBytes2 sub ++
        leBytes8 ts)).testBit 29 = false) ∧
    headerWord (leBytes4 (if e then (L % 2 ^ 32 ||| FLAG_ENCODED) ||| FLAG_EXPIRING
        else L % 2 ^ 32 ||| FLAG_ENCODED) ++ leBytes2 cat ++ leBytes2 sub ++
        leBytes8 ts) % 2 ^ 30 = L % 2 ^ 30 := by
  refine ⟨?_, ?_, ?_⟩
  · rw [word_e_testBit _ _ _ _ _ (by norm_num : (30 : Nat) < 31)]
    show (L % 2 ^ 32 ||| 2 ^ 30).testBit 30 = true
    rw [Nat.testBit_lor, Nat.testBit_two_pow_self, Bool.or_true]
  · intro hL
    rw [word_e_testBit _ _ _ _ _ (by norm_num : (29 : Nat) < 31)]
    show (L % 2 ^ 32 ||| 2 ^ 30).testBit 29 = false
    rw [Nat.testBit_lor, Nat.testBit_two_pow_of_ne (by omega : 30 ≠ 29),
      Nat.testBit_mod_two_pow, Nat.testBit_eq_false_of_lt (by omega : L < 2 ^ 29)]
    simp
  · rw [word_e_low30]
    show (L % 2 ^ 32 ||| 2 ^ 30) % 2 ^ 30 = L % 2 ^ 30
    rw [or_high_mod30 _ 30 le_rfl,
      Nat.mod_mod_of_dvd _ (by norm_num : (2 : Nat) ^ 30 ∣ 2 ^ 32)]

/-- Header-word facts of a literal record for a value of length `L`. -/
theorem literal_mode_facts (L cat sub ts : Nat) (e : Bool) :
    (L < 2 ^ 29 →
      (headerWord (leBytes4 (if e then (L % 2 ^ 32) ||| FLAG_EXPIRING else L % 2 ^ 32) ++
        leBytes2 cat ++ leBytes2 sub ++ leBytes8 ts)).testBit 29 = false ∧
      (headerWord (leBytes4 (if e then (L % 2 ^ 32) ||| FLAG_EXPIRING else L % 2 ^ 32) ++
        leBytes2 cat ++ leBytes2 sub ++ leBytes8 ts)).testBit 30 = false) ∧
    headerWord (leBytes4 (if e then (L % 2 ^ 32) ||| FLAG_EXPIRING else L % 2 ^ 32) ++
      leBytes2 cat ++ leBytes2 sub ++ leBytes8 ts) % 2 ^ 30 = L % 2 ^ 30 := by
  constructor
  · intro hL
    constructor
    · rw [word_e_testBit _ _ _ _ _ (by norm_num : (29 : Nat) < 31),
        Nat.testBit_mod_two_pow, Nat.testBit_eq_false_of_lt (by omega : L < 2 ^ 29)]
      simp
    · rw [word_e_testBit _ _ _ _ _ (by norm_num : (30 : Nat) < 31),
        Nat.testBit_mod_two_pow, Nat.testBit_eq_false_of_lt (by omega : L < 2 ^ 30)]
      simp
  · rw [word_e_low30, Nat.mod_mod_of_dvd _ (by norm_num : (2 : Nat) ^ 30 ∣ 2 ^ 32)]

/-- Claim C2 (amended): `add_entry` selects the value representation by
priority: dictionary-indexed (INDEXED flag set, the index OR-ed with the
INDEXED flag bit occupying the low 30 bits, zero payload bytes) exactly
when the value starts with a quote or parenthesis byte or is the single
minus byte, with the `value_index` overflow abort propagated; otherwise
nibble-packed (ENCODED flag set, original length in the low 30 bits)
exactly when every byte is in the alphabet; otherwise literal passthrough
(length in the low 30 bits). For value and header-index widths below the
flag positions (length below `2 ^ 29`, dictionary indices within the
value-dictionary bound) at most one of ENCODED/INDEXED is set. The four
mode-priority examples hold on a fresh dictionary pair. -/
theorem add_entry_mode_selection (cat sub ts : Nat) (e : Bool) (v : Bytes)
    (d : Dicts) (hd : ValsSmall d) :
    (indexedCond v →
      addEntry cat sub v ts e d = none ∨
      ∃ i d2 msg, Dicts.valueIndex d v = some (i, d2) ∧
        addEntry cat sub v ts e d = some (msg, [], d2) ∧
        headerWord msg % 2 ^ 30 = i ||| FLAG_INDEXED ∧
        (headerWord msg).testBit 29 = true ∧ (headerWord msg).testBit 30 = false) ∧
    (¬ indexedCond v → (∀ b ∈ v, b ∈ alphabet) →
      ∃ w msg, enc v = some w ∧ w.length = (v.length + 1) / 2 ∧
        addEntry cat sub v ts e d = some (msg, w, d) ∧
        (headerWord msg).testBit 30 = true ∧
        (v.length < 2 ^ 29 → (headerWord msg).testBit 29 = false) ∧
        headerWord msg % 2 ^ 30 = v.length % 2 ^ 30) ∧
    (¬ indexedCond v → ¬ (∀ b ∈ v, b ∈ alphabet) →
      ∃ msg, addEntry cat sub v ts e d = some (msg, v, d) ∧
        (v.length < 2 ^ 29 → (headerWord msg).testBit 29 = false ∧
          (headerWord msg).testBit 30 = false) ∧
        headerWord msg % 2 ^ 30 = v.length % 2 ^ 30) ∧
    (v.length < 2 ^ 29 → ∀ msg wv d2,
      addEntry cat sub v ts e d = some (msg, wv, d2) →
      ¬ ((headerWord msg).testBit 29 = true ∧ (headerWord msg).testBit 30 = true)) ∧
    ((addEntry 0 0 [39, 104, 101, 108, 108, 111] 0 false Dicts.default).map
        (fun r => ((headerWord r.1).testBit 29, r.2.1)) = some (true, []) ∧
      (addEntry 0 0 [45] 0 false Dicts.default).map
        (fun r => (headerWord r.1, r.2.1)) = some (FLAG_INDEXED, []) ∧
      Dicts.valueIndex Dicts.default [45] = some (0, Dicts.default) ∧
      (addEntry 0 0 [49, 50, 46, 53] 0 false Dicts.default).map
        (fun r => ((headerWord r.1).testBit 30, headerWord r.1 % 2 ^ 30,
          r.2.1.length)) = some (true, 4, 2) ∧
      (addEntry 0 0 [102, 111, 111] 0 false Dicts.default).map
        (fun r => ((headerWord r.1).testBit 29, (headerWord r.1).testBit 30, r.2.1)) =
        some (false, false, [102, 111, 111])) := by
  refine ⟨?_, ?_, ?_, ?_, by decide, by decide, by decide, by decide, by decide⟩
  · intro hcond
    rcases hvi : Dicts.valueIndex d v with _ | ⟨i, d2⟩
    · left
      rw [addEntry_eq, selectMode_indexed hcond, hvi]
    · right
      have hi : i < 2 ^ 30 := by
        have := valueIndex_lt hd hvi
        omega
      have heq : addEntry cat sub v ts e d =
          some (leBytes4 (if e then (i ||| FLAG_INDEXED) ||| FLAG_EXPIRING
            else i ||| FLAG_INDEXED) ++ leBytes2 cat ++ leBytes2 sub ++ leBytes8 ts,
            [], d2) := by
        rw [addEntry_eq, selectMode_indexed hcond, hvi]
      obtain ⟨h1, h2, h3⟩ := indexed_mode_facts i hi cat sub ts e
      exact ⟨i, d2, _, rfl, heq, h1, h2, h3⟩
  · intro hncond halpha
    obtain ⟨w, hw, hwlen, -⟩ := enc_dec_aux v.length v le_rfl halpha
    have heq : addEntry cat sub v ts e d =
        some (leBytes4 (if e then (v.length % 2 ^ 32 ||| FLAG_ENCODED) ||| FLAG_EXPIRING
          else v.length % 2 ^ 32 ||| FLAG_ENCODED) ++ leBytes2 cat ++ leBytes2 sub ++
          leBytes8 ts, w, d) := by
      rw [addEntry_eq, selectMode_encoded hncond hw]
    obtain ⟨h1, h2, h3⟩ := encoded_mode_facts v.length cat sub ts e
    exact ⟨w, _, hw, hwlen, heq, h1, h2, h3⟩
  · intro hncond hnalpha
    have heq : addEntry cat sub v ts e d =
        some (leBytes4 (if e then (v.length % 2 ^ 32) ||| FLAG_EXPIRING
          else v.length % 2 ^ 32) ++ leBytes2 cat ++ leBytes2 sub ++
          leBytes8 ts, v, d) := by
      rw [addEntry_eq, selectMode_literal hncond (enc_eq_none hnalpha)]
    obtain ⟨h1, h2⟩ := literal_mode_facts v.length cat sub ts e
    exact ⟨_, heq, h1, h2⟩
  · intro hL msg wv d2 hsome hbits
    by_cases hcond : indexedCond v
    · rcases hvi : Dicts.valueIndex d v with _ | ⟨i, d2x⟩
      · rw [addEntry_eq, selectMode_indexed hcond, hvi] at hsome
        simp at hsome
      · have hi : i < 2 ^ 30 := by
          have := valueIndex_lt hd hvi
          omega
        have heq : addEntry cat sub v ts e d =
            some (leBytes4 (if e then (i ||| FLAG_INDEXED) ||| FLAG_EXPIRING
              else i ||| FLAG_INDEXED) ++ leBytes2 cat ++ leBytes2 sub ++ leBytes8 ts,
              [], d2x) := by
          rw [addEntry_eq, selectMode_indexed hcond, hvi]
        rw [heq] at hsome
        simp only [Option.some.injEq, Prod.mk.injEq] at hsome
        obtain ⟨hmsg, -, -⟩ := hsome
        obtain ⟨-, -, h3⟩ := indexed_mode_facts i hi cat sub ts e
        rw [← hmsg, h3] at hbits
        exact absurd hbits.2 (by simp)
    · by_cases halpha : ∀ b ∈ v, b ∈ alphabet
      · obtain ⟨w, hw, -, -⟩ := enc_dec_aux v.length v le_rfl halpha
        have heq : addEntry cat sub v ts e d =
            some (leBytes4 (if e then (v.length % 2 ^ 32 ||| FLAG_ENCODED) |||
              FLAG_EXPIRING else v.length % 2 ^ 32 ||| FLAG_ENCODED) ++ leBytes2 cat ++
              leBytes2 sub ++ leBytes8 ts, w, d) := by
          rw [addEntry_eq, selectMode_encoded hcond hw]
        rw [heq] at hsome
        simp only [Option.some.injEq, Prod.mk.injEq] at hsome
        obtain ⟨hmsg, -, -⟩ := hsome
        obtain ⟨-, h2, -⟩ := encoded_mode_facts v.length cat sub ts e
        rw [← hmsg, h2 hL] at hbits
        exact absurd hbits.1 (by simp)
      · have heq : addEntry cat sub v ts e d =
            some (leBytes4 (if e then (v.length % 2 ^ 32) ||| FLAG_EXPIRING
              else v.length % 2 ^ 32) ++ leBytes2 cat ++ leBytes2 sub ++
              leBytes8 ts, v, d) := by
          rw [addEntry_eq, selectMode_literal hcond (enc_eq_none halpha)]
        rw [heq] at hsome
        simp only [Option.some.injEq, Prod.mk.injEq] at hsome
        obtain ⟨hmsg, -, -⟩ := hsome
        obtain ⟨h1, -⟩ := literal_mode_facts v.length cat sub ts e
        rw [← hmsg, (h1 hL).2] at hbits
        exact absurd hbits.2 (by simp)

/-- Counterexample to C2 as stated: the pre-seeded minus-sign value is
dictionary-indexed with index 0, yet the low 30 bits of its header word
are `2 ^ 29` (the index OR-ed with the INDEXED flag bit), not the index. -/
theorem add_entry_indexed_low30_counterexample :
    Dicts.valueIndex Dicts.default [45] = some (0, Dicts.default) ∧
    (addEntry 0 0 [45] 0 false Dicts.default).map
      (fun r => headerWord r.1 % 2 ^ 30) = some (2 ^ 29) ∧
    (2 ^ 29 : Nat) ≠ 0 := by
  refine ⟨by decide, by decide, by decide⟩

/-- Witness for C2: the nibble-packed branch at the value `12.5` on the
default dictionary pair. -/
theorem add_entry_mode_selection_witness :
    ∃ w msg, enc [49, 50, 46, 53] = some w ∧
      w.length = (List.length [49, 50, 46, 53] + 1) / 2 ∧
      addEntry 0 0 [49, 50, 46, 53] 0 false Dicts.default =
        some (msg, w, Dicts.default) ∧
      (headerWord msg).testBit 30 = true ∧
      (List.length [49, 50, 46, 53] < 2 ^ 29 → (headerWord msg).testBit 29 = false) ∧
      headerWord msg % 2 ^ 30 = List.length [49, 50, 46, 53] % 2 ^ 30 :=
  (add_entry_mode_selection 0 0 0 false [49, 50, 46, 53] Dicts.default
    valsSmall_default).2.1 (by decide) (by decide)

/-! ### Claim C4 -/

theorem default_keys_strs : Dicts.default.keys.strs = [] := rfl

theorem default_keys_maxIndex : Dicts.default.keys.maxIndex = 65535 := rfl

theorem default_vals_strs : Dicts.default.vals.strs = [[45]] := by
  rw [default_vals_eq]

theorem default_vals_maxIndex : Dicts.default.vals.maxIndex = 2 ^ 30 - 1 := by
  rw [default_vals_eq]

theorem fourByte_inj {a b : Nat} (ha : a < 2 ^ 32) (hb : b < 2 ^ 32)
    (h : fourByte a = fourByte b) : a = b := by
  simp only [fourByte, List.cons.injEq, and_true] at h
  omega

theorem fourByte_range_nodup (N : Nat) (hN : N ≤ 2 ^ 32) :
    ((List.range N).map fourByte).Nodup :=
  List.Nodup.map_on
    (fun _ ha _ hb h => fourByte_inj (lt_of_lt_of_le (List.mem_range.1 ha) hN)
      (lt_of_lt_of_le (List.mem_range.1 hb) hN) h)
    (List.nodup_range N)

theorem fourByte_ne_dash (n : Nat) : fourByte n ≠ [45] := by
  simp [fourByte]

theorem fourByte_not_mem_range (N n : Nat) (hN : N ≤ 2 ^ 32) (hn : n < 2 ^ 32)
    (hnN : N ≤ n) : fourByte n ∉ (List.range N).map fourByte := by
  intro hmem
  rcases List.mem_map.1 hmem with ⟨m, hm, hfm⟩
  have := fourByte_inj (lt_of_lt_of_le (List.mem_range.1 hm) hN) hn hfm
  have := List.mem_range.1 hm
  omega

/-- Claim C4 (amended): the key dictionary of `Dicts::default` admits
65535 distinct entries, receiving indices `0..65534` in insertion order,
before a further distinct insertion fails with overflow (its bound is
`u16::MAX` = 65535, not 65536); the value dictionary admits `2 ^ 30 - 1`
distinct entries in total — the pre-seeded minus string at index 0 plus
`2 ^ 30 - 2` further distinct entries at indices `1..2 ^ 30 - 2` — before
a further distinct insertion fails with overflow. -/
theorem dict_capacity (xsK xsV : List Bytes)
    (hndK : xsK.Nodup) (hlenK : xsK.length = 65535)
    (hndV : xsV.Nodup) (hlenV : xsV.length = 2 ^ 30 - 2) (hmV : [45] ∉ xsV) :
    (∃ K, insertAll Dicts.default.keys xsK = some (List.range 65535, K) ∧
      K.strs.length = 65535 ∧ ∀ y, y ∉ xsK → Dict.index K y = none) ∧
    (∃ V, insertAll Dicts.default.vals xsV = some (List.range' 1 (2 ^ 30 - 2), V) ∧
      V.strs.length = 2 ^ 30 - 1 ∧
      ∀ y, y ∉ xsV → y ≠ [45] → Dict.index V y = none) := by
  constructor
  · obtain ⟨K, hall, hKstrs, hKmax, hKwf⟩ := insertAll_fresh xsK Dicts.default.keys
      (fun _ => rfl) hndK
      (by
        intro x hx
        rw [default_keys_strs]
        exact List.not_mem_nil x)
      (by rw [default_keys_strs, List.length_nil, default_keys_maxIndex, hlenK])
      (by rw [default_keys_maxIndex]; norm_num)
    have hrange : List.range' Dicts.default.keys.strs.length xsK.length =
        List.range 65535 := by
      rw [default_keys_strs, List.length_nil, hlenK, List.range_eq_range']
    refine ⟨K, by rw [hall, hrange], ?_, ?_⟩
    · rw [hKstrs, default_keys_strs, List.nil_append, hlenK]
    · intro y hy
      apply index_overflow
      · rw [hKwf y]
        apply lastIdx_eq_none
        rw [hKstrs, default_keys_strs, List.nil_append]
        exact hy
      · rw [hKmax, default_keys_maxIndex, hKstrs, default_keys_strs,
          List.nil_append, hlenK]
  · obtain ⟨V, hall, hVstrs, hVmax, hVwf⟩ := insertAll_fresh xsV Dicts.default.vals
      default_vals_Wf hndV
      (by
        intro x hx
        rw [default_vals_strs]
        intro hmem
        exact hmV (List.mem_singleton.1 hmem ▸ hx)
      )
      (by
        rw [default_vals_strs, List.length_singleton, default_vals_maxIndex, hlenV]
        norm_num)
      (by rw [default_vals_maxIndex]; norm_num)
    have hrange : List.range' Dicts.default.vals.strs.length xsV.length =
        List.range' 1 (2 ^ 30 - 2) := by
      rw [default_vals_strs, List.length_singleton, hlenV]
    refine ⟨V, by rw [hall, hrange], ?_, ?_⟩
    · rw [hVstrs, default_vals_strs, List.length_append, List.length_singleton, hlenV]
      norm_num
    · intro y hy hy45
      apply index_overflow
      · rw [hVwf y]
        apply lastIdx_eq_none
        rw [hVstrs, default_vals_strs]
        intro hmem
        rcases List.mem_append.1 hmem with h | h
        · exact hy45 (List.mem_singleton.1 h)
        · exact hy h
      · rw [hVmax, default_vals_maxIndex, hVstrs, default_vals_strs,
          List.length_append, List.length_singleton, hlenV]
        norm_num

/-- Counterexample to C4 as stated: inserting 65536 distinct strings into
the fresh key dictionary fails (the 65536th insertion overflows), while
65535 distinct insertions succeed. -/
theorem key_dict_capacity_counterexample :
    insertAll Dicts.default.keys ((List.range 65536).map fourByte) = none ∧
    (insertAll Dicts.default.keys ((List.range 65535).map fourByte)).isSome = true := by
  obtain ⟨K, hall, hKstrs, hKmax, hKwf⟩ := insertAll_fresh
    ((List.range 65535).map fourByte) Dicts.default.keys (fun _ => rfl)
    (fourByte_range_nodup 65535 (by norm_num))
    (by
      intro x hx
      rw [default_keys_strs]
      exact List.not_mem_nil x)
    (by rw [default_keys_strs, List.length_nil, default_keys_maxIndex,
        List.length_map, List.length_range])
    (by rw [default_keys_maxIndex]; norm_num)
  constructor
  · have hnm : fourByte 65535 ∉ K.strs := by
      rw [hKstrs, default_keys_strs, List.nil_append]
      exact fourByte_not_mem_range 65535 65535 (by norm_num) (by norm_num) le_rfl
    have hov : Dict.index K (fourByte 65535) = none := by
      apply index_overflow
      · rw [hKwf (fourByte 65535)]
        exact lastIdx_eq_none _ _ hnm
      · rw [hKmax, default_keys_maxIndex, hKstrs, default_keys_strs,
          List.nil_append, List.length_map, List.length_range]
    have hsplit : (List.range 65536).map fourByte =
        ((List.range 65535).map fourByte) ++ [fourByte 65535] := by
      rw [show (65536 : Nat) = 65535 + 1 from rfl, List.range_succ, List.map_append,
        List.map_singleton]
    rw [hsplit]
    exact insertAll_append_none _ _ _ _ _ hall hov
  · rw [hall]
    rfl

/-- Witness for C4 at explicit families of distinct byte strings. -/
theorem dict_capacity_witness :
    (∃ K, insertAll Dicts.default.keys ((List.range 65535).map fourByte) =
      some (List.range 65535, K) ∧ K.strs.length = 65535 ∧
      ∀ y, y ∉ (List.range 65535).map fourByte → Dict.index K y = none) ∧
    (∃ V, insertAll Dicts.default.vals ((List.range (2 ^ 30 - 2)).map fourByte) =
      some (List.range' 1 (2 ^ 30 - 2), V) ∧ V.strs.length = 2 ^ 30 - 1 ∧
      ∀ y, y ∉ (List.range (2 ^ 30 - 2)).map fourByte → y ≠ [45] →
        Dict.index V y = none) :=
  dict_capacity ((List.range 65535).map fourByte)
    ((List.range (2 ^ 30 - 2)).map fourByte)
    (fourByte_range_nodup 65535 (by norm_num))
    (by rw [List.length_map, List.length_range])
    (fourByte_range_nodup (2 ^ 30 - 2) (by norm_num))
    (by rw [List.length_map, List.length_range])
    (fun h => by
      rcases List.mem_map.1 h with ⟨n, -, hn⟩
      exact fourByte_ne_dash n hn)

end CacheDB
